import Mathlib

/-!
# Verification of the allergy-detection core

Shallow embedding of the pure core of `allergy_app_easyocr.py` and
`allergy_app_easyocr_voice.py` (both files contain identical copies of
`normalize`, `parse_ingredients` and `check_allergy`).

Python strings are modelled as Lean `String` (a wrapper around `List Char`):

* `s.strip()`  →  `pyStrip` (drop leading / trailing whitespace);
* `s.lower()`  →  `pyLower` (`Char.toLower` on every character, the
  ASCII case of Python `lower`);
* `s.replace(';', ',')` → `pyReplaceChar ';' ','`;
* `s.split(',')` → `pySplit ','` (splitting on every separator
  occurrence, `"".split(',') == [""]`);
* `a in f` (substring test, true for the empty string) → `strMem`;
* Python `set` → `Finset String`; `sorted(s)` → `sortedList`
  (`Finset.sort` by the lexicographic order on `String`).

The user profile dict is modelled by `Profile`; only its `allergies`
entry is read by `check_allergy` (`profile.get('allergies', [])`), the
`name` field stands for the remaining profile data.
-/

namespace AllergyApp

/-- Python `s.strip()` on the character list, trailing part:
remove trailing whitespace characters. -/
def stripEnd : List Char → List Char
  | [] => []
  | c :: cs =>
    match stripEnd cs with
    | [] => if c.isWhitespace then [] else [c]
    | d :: ds => c :: d :: ds

/-- Python `s.strip()` on the character list: remove leading and
trailing whitespace. -/
def pyStripL (l : List Char) : List Char :=
  stripEnd (l.dropWhile Char.isWhitespace)

/-- Python `s.strip()`. -/
def pyStrip (s : String) : String := ⟨pyStripL s.data⟩

/-- Python `s.lower()` (ASCII range, as in the labels the app reads). -/
def pyLower (s : String) : String := ⟨s.data.map Char.toLower⟩

/-- `normalize` from the source: `return s.strip().lower()`. -/
def normalize (s : String) : String := pyLower (pyStrip s)

/-- Python `str.split(sep)` for a one-character separator, on character
lists: `acc` accumulates the current piece in reverse. -/
def splitCharAux (sep : Char) : List Char → List Char → List (List Char)
  | [], acc => [acc.reverse]
  | c :: cs, acc =>
    if c = sep then acc.reverse :: splitCharAux sep cs []
    else splitCharAux sep cs (c :: acc)

/-- Python `s.split(sep)` for a one-character separator. -/
def pySplit (sep : Char) (s : String) : List String :=
  (splitCharAux sep s.data []).map String.mk

/-- Python `s.replace(a, b)` for one-character `a`, `b`. -/
def pyReplaceChar (a b : Char) (s : String) : String :=
  ⟨s.data.map (fun c => if c = a then b else c)⟩

/-- The list comprehension inside `parse_ingredients`:
`[normalize(x) for x in text.replace(';', ',').split(',') if x.strip()]`. -/
def tokensOf (text : String) : List String :=
  ((pySplit ',' (pyReplaceChar ';' ',' text)).filter
      (fun x => pyStrip x ≠ "")).map normalize

/-- `parse_ingredients` from the source:
`return {normalize(x) for x in text.replace(';', ',').split(',') if x.strip()}`. -/
def parse_ingredients (text : String) : Finset String :=
  (tokensOf text).toFinset

/-- The user profile: `check_allergy` reads only the `allergies` entry
(`profile.get('allergies', [])`); `name` stands for the rest of the
profile data. -/
structure Profile where
  name : String
  allergies : List String
deriving DecidableEq, Repr

/-- The report dict returned by `check_allergy`. The Python key
`'partial'` is rendered as the field `partMatches`. -/
structure Report where
  ingredients : List String
  direct : List String
  partMatches : List String
  severity : String
deriving DecidableEq, Repr

/-- Python `a in f` on strings: substring containment (true whenever
`a` is empty). -/
def strMem (a f : String) : Prop := a.data <:+: f.data

instance (a f : String) : Decidable (strMem a f) :=
  List.decidableInfix a.data f.data

/-- Python string comparison on character lists: lexicographic by code
point. -/
def charsLe : List Char → List Char → Bool
  | [], _ => true
  | _ :: _, [] => false
  | a :: as, b :: bs => if a = b then charsLe as bs else decide (a < b)

/-- Python `a <= b` on strings: lexicographic by code point. -/
def strLe (a b : String) : Prop := charsLe a.data b.data = true

instance : DecidableRel strLe := fun a b =>
  inferInstanceAs (Decidable (charsLe a.data b.data = true))

theorem charsLe_total : ∀ as bs, charsLe as bs = true ∨ charsLe bs as = true
  | [], _ => Or.inl rfl
  | _ :: _, [] => Or.inr rfl
  | a :: as, b :: bs => by
    by_cases hab : a = b
    · subst hab
      simpa [charsLe] using charsLe_total as bs
    · rcases lt_or_gt_of_ne hab with h | h
      · exact Or.inl (by simp [charsLe, hab, h])
      · exact Or.inr (by simp [charsLe, Ne.symm hab, h])

theorem charsLe_antisymm :
    ∀ as bs, charsLe as bs = true → charsLe bs as = true → as = bs
  | [], [], _, _ => rfl
  | [], _ :: _, _, h => by simp [charsLe] at h
  | _ :: _, [], h, _ => by simp [charsLe] at h
  | a :: as, b :: bs, h₁, h₂ => by
    by_cases hab : a = b
    · subst hab
      simp only [charsLe, if_pos rfl] at h₁ h₂
      exact congrArg (a :: ·) (charsLe_antisymm as bs h₁ h₂)
    · simp only [charsLe, if_neg hab, decide_eq_true_eq] at h₁
      simp only [charsLe, if_neg (Ne.symm hab), decide_eq_true_eq] at h₂
      exact absurd h₂ (lt_asymm h₁)

theorem charsLe_trans :
    ∀ as bs cs, charsLe as bs = true → charsLe bs cs = true →
      charsLe as cs = true
  | [], _, _, _, _ => rfl
  | _ :: _, [], _, h, _ => by simp [charsLe] at h
  | _ :: _, _ :: _, [], _, h => by simp [charsLe] at h
  | a :: as, b :: bs, c :: cs, h₁, h₂ => by
    by_cases hab : a = b <;> by_cases hbc : b = c
    · subst hab; subst hbc
      simp only [charsLe, if_pos rfl] at h₁ h₂ ⊢
      exact charsLe_trans as bs cs h₁ h₂
    · subst hab
      simpa [charsLe, hbc] using h₂
    · subst hbc
      simpa [charsLe, hab] using h₁
    · simp only [charsLe, if_neg hab, decide_eq_true_eq] at h₁
      simp only [charsLe, if_neg hbc, decide_eq_true_eq] at h₂
      have hac : a < c := lt_trans h₁ h₂
      simp [charsLe, ne_of_lt hac, hac]

instance : IsTotal String strLe :=
  ⟨fun a b => charsLe_total a.data b.data⟩

instance : IsTrans String strLe :=
  ⟨fun a b c h₁ h₂ => charsLe_trans a.data b.data c.data h₁ h₂⟩

instance : IsAntisymm String strLe :=
  ⟨fun a b h₁ h₂ =>
    String.toList_inj.mp (charsLe_antisymm a.data b.data h₁ h₂)⟩

instance : IsRefl String strLe :=
  ⟨fun a => (charsLe_total a.data a.data).elim id id⟩

/-- Python `sorted` on a multiset of strings: insertion sort by `strLe`,
well defined because sorting by a total order is permutation invariant. -/
def sortMS (m : Multiset String) : List String :=
  Quot.liftOn m (fun l => l.insertionSort strLe) fun l₁ l₂ h =>
    List.eq_of_perm_of_sorted
      ((l₁.perm_insertionSort strLe).trans
        (h.trans (l₂.perm_insertionSort strLe).symm))
      (l₁.sorted_insertionSort strLe) (l₂.sorted_insertionSort strLe)

/-- Python `sorted(s)` for a set of strings: the ascending
(lexicographic) enumeration. -/
def sortedList (s : Finset String) : List String := sortMS s.val

/-- `check_allergy` from the source. -/
def check_allergy (p : Profile) (text : String) : Report :=
  let user_allergies : Finset String := (p.allergies.map normalize).toFinset
  let food_ings : Finset String := parse_ingredients text
  let direct : Finset String := user_allergies ∩ food_ings
  let partSet : Finset String :=
    food_ings.filter (fun fi => ∃ ua ∈ user_allergies, strMem ua fi ∧ ua ≠ fi)
  let severity : String :=
    if direct.Nonempty then "High"
    else if partSet.Nonempty then "Medium" else "Low"
  { ingredients := sortedList food_ings
    direct := sortedList direct
    partMatches := sortedList partSet
    severity := severity }

/-! ## Character-level lemmas -/

theorem char_eq_iff {c d : Char} : c = d ↔ c.toNat = d.toNat :=
  ⟨fun h => h ▸ rfl, fun h => Char.ext (UInt32.ext h)⟩

theorem toNat_toLower (c : Char) :
    (Char.toLower c).toNat =
      if 65 ≤ c.toNat ∧ c.toNat ≤ 90 then c.toNat + 32 else c.toNat := by
  unfold Char.toLower
  split
  · rename_i h
    rw [if_pos h]
    have hv : (c.toNat + 32).isValidChar := Or.inl (by omega)
    rw [Char.ofNat, dif_pos hv]
    simp [Char.ofNatAux, Char.toNat, UInt32.toNat]
  · rename_i h
    rw [if_neg h]

theorem toLower_eq_self {c : Char} (h : ¬(65 ≤ c.toNat ∧ c.toNat ≤ 90)) :
    Char.toLower c = c :=
  char_eq_iff.mpr (by rw [toNat_toLower, if_neg h])

theorem toNat_toLower_of_upper {c : Char} (h : 65 ≤ c.toNat ∧ c.toNat ≤ 90) :
    (Char.toLower c).toNat = c.toNat + 32 := by
  rw [toNat_toLower, if_pos h]

theorem toLower_toLower (c : Char) :
    Char.toLower (Char.toLower c) = Char.toLower c := by
  by_cases h : 65 ≤ c.toNat ∧ c.toNat ≤ 90
  · exact toLower_eq_self (by rw [toNat_toLower_of_upper h]; omega)
  · rw [toLower_eq_self h, toLower_eq_self h]

theorem isWhitespace_iff (c : Char) :
    c.isWhitespace = true ↔
      c.toNat = 32 ∨ c.toNat = 9 ∨ c.toNat = 13 ∨ c.toNat = 10 := by
  simp only [Char.isWhitespace, Bool.or_eq_true, decide_eq_true_eq, char_eq_iff,
    show (' ' : Char).toNat = 32 from rfl, show ('\t' : Char).toNat = 9 from rfl,
    show ('\r' : Char).toNat = 13 from rfl, show ('\n' : Char).toNat = 10 from rfl]
  tauto

theorem isWhitespace_toLower (c : Char) :
    (Char.toLower c).isWhitespace = c.isWhitespace := by
  by_cases h : 65 ≤ c.toNat ∧ c.toNat ≤ 90
  · have h1 : ¬((Char.toLower c).isWhitespace = true) := by
      intro hw
      rw [isWhitespace_iff, toNat_toLower_of_upper h] at hw
      omega
    have h2 : ¬(c.isWhitespace = true) := by
      intro hw
      rw [isWhitespace_iff] at hw
      omega
    rw [Bool.not_eq_true] at h1 h2
    rw [h1, h2]
  · rw [toLower_eq_self h]

theorem isUpper_iff (c : Char) :
    c.isUpper = true ↔ 65 ≤ c.toNat ∧ c.toNat ≤ 90 := by
  simp only [Char.isUpper, Bool.and_eq_true, decide_eq_true_eq,
    UInt32.le_def, BitVec.le_def]
  exact Iff.rfl

theorem isUpper_toLower (c : Char) : (Char.toLower c).isUpper = false := by
  have h1 : ¬((Char.toLower c).isUpper = true) := by
    intro hu
    rw [isUpper_iff] at hu
    by_cases h : 65 ≤ c.toNat ∧ c.toNat ≤ 90
    · rw [toNat_toLower_of_upper h] at hu
      omega
    · rw [toLower_eq_self h] at hu
      exact h hu
  rwa [Bool.not_eq_true] at h1

theorem toLower_eq_low {c d : Char} (hd : d.toNat < 65 ∨ 122 < d.toNat) :
    Char.toLower c = d ↔ c = d := by
  constructor
  · intro h
    by_cases hc : 65 ≤ c.toNat ∧ c.toNat ≤ 90
    · exfalso
      have := congrArg Char.toNat h
      rw [toNat_toLower_of_upper hc] at this
      omega
    · rwa [toLower_eq_self hc] at h
  · intro h
    subst h
    exact toLower_eq_self (by omega)

/-! ## Lemmas about `stripEnd`, `pyStripL`, `pyLower` -/

theorem dropWhile_head_false {p : α → Bool} :
    ∀ {l : List α} {c : α} {cs : List α},
      l.dropWhile p = c :: cs → p c = false
  | [], _, _, h => by simp at h
  | a :: l, c, cs, h => by
    by_cases hp : p a
    · rw [List.dropWhile_cons_of_pos hp] at h
      exact dropWhile_head_false h
    · rw [List.dropWhile_cons_of_neg hp] at h
      cases h
      exact Bool.of_not_eq_true hp

theorem stripEnd_cons (c : Char) (cs : List Char) :
    stripEnd (c :: cs) =
      match stripEnd cs with
      | [] => if c.isWhitespace then [] else [c]
      | d :: ds => c :: d :: ds := rfl

theorem stripEnd_sublist : ∀ l : List Char, List.Sublist (stripEnd l) l
  | [] => List.Sublist.refl []
  | c :: cs => by
    rw [stripEnd_cons]
    cases h : stripEnd cs with
    | nil =>
      by_cases hw : c.isWhitespace
      · rw [if_pos hw]
        exact List.nil_sublist _
      · rw [if_neg hw]
        exact (List.nil_sublist cs).cons₂ c
    | cons d ds =>
      exact (h ▸ stripEnd_sublist cs).cons₂ c

theorem stripEnd_idem : ∀ l : List Char, stripEnd (stripEnd l) = stripEnd l
  | [] => rfl
  | c :: cs => by
    rw [stripEnd_cons]
    cases h : stripEnd cs with
    | nil =>
      by_cases hw : c.isWhitespace
      · rw [if_pos hw]
        rfl
      · rw [if_neg hw, stripEnd_cons, show stripEnd ([] : List Char) = [] from rfl]
        rw [if_neg hw]
    | cons d ds =>
      have ih := stripEnd_idem cs
      rw [h] at ih
      rw [stripEnd_cons, ih]

theorem stripEnd_cons_head (c : Char) (cs : List Char) :
    stripEnd (c :: cs) = [] ∨ ∃ r, stripEnd (c :: cs) = c :: r := by
  rw [stripEnd_cons]
  cases stripEnd cs with
  | nil =>
    by_cases hw : c.isWhitespace
    · rw [if_pos hw]
      exact Or.inl rfl
    · rw [if_neg hw]
      exact Or.inr ⟨[], rfl⟩
  | cons d ds => exact Or.inr ⟨d :: ds, rfl⟩

theorem pyStripL_idem (l : List Char) : pyStripL (pyStripL l) = pyStripL l := by
  unfold pyStripL
  have hdw : (stripEnd (l.dropWhile Char.isWhitespace)).dropWhile Char.isWhitespace
      = stripEnd (l.dropWhile Char.isWhitespace) := by
    cases hm : l.dropWhile Char.isWhitespace with
    | nil => simp [stripEnd]
    | cons c cs =>
      have hc : c.isWhitespace = false := dropWhile_head_false hm
      rcases stripEnd_cons_head c cs with h | ⟨r, h⟩
      · rw [h]
        rfl
      · rw [h, List.dropWhile_cons_of_neg (by simp [hc])]
  rw [hdw, stripEnd_idem]

theorem dropWhile_ws_map_toLower (l : List Char) :
    (l.map Char.toLower).dropWhile Char.isWhitespace =
      (l.dropWhile Char.isWhitespace).map Char.toLower := by
  induction l with
  | nil => rfl
  | cons c cs ih =>
    by_cases h : c.isWhitespace
    · rw [List.map_cons, List.dropWhile_cons_of_pos (by rwa [isWhitespace_toLower]),
        List.dropWhile_cons_of_pos h, ih]
    · rw [List.map_cons, List.dropWhile_cons_of_neg (by rwa [isWhitespace_toLower]),
        List.dropWhile_cons_of_neg h, List.map_cons]

theorem stripEnd_map_toLower :
    ∀ l : List Char, stripEnd (l.map Char.toLower) = (stripEnd l).map Char.toLower
  | [] => rfl
  | c :: cs => by
    have ih := stripEnd_map_toLower cs
    rw [List.map_cons, stripEnd_cons, ih, stripEnd_cons]
    cases stripEnd cs with
    | nil =>
      rw [List.map_nil, isWhitespace_toLower]
      by_cases h : c.isWhitespace
      · rw [if_pos h, if_pos h, List.map_nil]
      · rw [if_neg h, if_neg h]
        rfl
    | cons d ds => rfl

theorem pyStripL_map_toLower (l : List Char) :
    pyStripL (l.map Char.toLower) = (pyStripL l).map Char.toLower := by
  unfold pyStripL
  rw [dropWhile_ws_map_toLower, stripEnd_map_toLower]

theorem map_toLower_toLower (l : List Char) :
    (l.map Char.toLower).map Char.toLower = l.map Char.toLower := by
  rw [List.map_map]
  exact List.map_congr_left fun a _ => toLower_toLower a

theorem data_pyStrip (s : String) : (pyStrip s).data = pyStripL s.data := rfl

theorem data_pyLower (s : String) : (pyLower s).data = s.data.map Char.toLower := rfl

theorem data_normalize (s : String) :
    (normalize s).data = (pyStripL s.data).map Char.toLower := rfl

theorem string_data_inj {s t : String} (h : s.data = t.data) : s = t :=
  String.toList_inj.mp h

theorem normalize_idem (s : String) : normalize (normalize s) = normalize s := by
  apply string_data_inj
  rw [data_normalize, data_normalize, pyStripL_map_toLower, pyStripL_idem,
    map_toLower_toLower]

theorem pyStrip_normalize (s : String) :
    pyStrip (normalize s) = normalize s := by
  apply string_data_inj
  rw [data_pyStrip, data_normalize, pyStripL_map_toLower, pyStripL_idem]

theorem pyLower_normalize (s : String) :
    pyLower (normalize s) = normalize s := by
  apply string_data_inj
  rw [data_pyLower, data_normalize, map_toLower_toLower]

theorem string_ne_empty_iff {s : String} : s ≠ "" ↔ s.data ≠ [] := by
  constructor
  · intro h hd
    exact h (string_data_inj hd)
  · intro h hs
    exact h (by rw [hs])

theorem normalize_ne_empty {s : String} (h : pyStrip s ≠ "") :
    normalize s ≠ "" := by
  rw [string_ne_empty_iff] at h ⊢
  rw [data_pyStrip] at h
  rw [data_normalize]
  simpa using h

/-! ## Lemmas about splitting and replacing -/

theorem pyStripL_sublist (l : List Char) : List.Sublist (pyStripL l) l :=
  (stripEnd_sublist _).trans (List.dropWhile_sublist _)

theorem splitCharAux_nil (sep : Char) (acc : List Char) :
    splitCharAux sep [] acc = [acc.reverse] := rfl

theorem splitCharAux_cons (sep c : Char) (cs acc : List Char) :
    splitCharAux sep (c :: cs) acc =
      if c = sep then acc.reverse :: splitCharAux sep cs []
      else splitCharAux sep cs (c :: acc) := rfl

theorem splitCharAux_no_sep (sep : Char) :
    ∀ (l acc : List Char), sep ∉ l →
      splitCharAux sep l acc = [acc.reverse ++ l]
  | [], acc, _ => by rw [splitCharAux_nil, List.append_nil]
  | c :: cs, acc, h => by
    have hc : c ≠ sep := fun e => h (e ▸ List.mem_cons_self c cs)
    have hcs : sep ∉ cs := fun e => h (List.mem_cons_of_mem c e)
    rw [splitCharAux_cons, if_neg hc, splitCharAux_no_sep sep cs (c :: acc) hcs]
    simp

theorem splitCharAux_append (sep : Char) :
    ∀ (l₁ acc l₂ : List Char), sep ∉ l₁ →
      splitCharAux sep (l₁ ++ sep :: l₂) acc =
        (acc.reverse ++ l₁) :: splitCharAux sep l₂ []
  | [], acc, l₂, _ => by
    rw [List.nil_append, splitCharAux_cons, if_pos rfl, List.append_nil]
  | c :: cs, acc, l₂, h => by
    have hc : c ≠ sep := fun e => h (e ▸ List.mem_cons_self c cs)
    have hcs : sep ∉ cs := fun e => h (List.mem_cons_of_mem c e)
    rw [List.cons_append, splitCharAux_cons, if_neg hc,
      splitCharAux_append sep cs (c :: acc) l₂ hcs]
    simp

theorem splitCharAux_mem_no_sep (sep : Char) :
    ∀ (l acc piece : List Char), sep ∉ acc →
      piece ∈ splitCharAux sep l acc → sep ∉ piece
  | [], acc, piece, hacc, hp => by
    rw [splitCharAux_nil, List.mem_singleton] at hp
    subst hp
    simpa using hacc
  | c :: cs, acc, piece, hacc, hp => by
    rw [splitCharAux_cons] at hp
    by_cases hc : c = sep
    · rw [if_pos hc] at hp
      rcases List.mem_cons.mp hp with h | h
      · subst h
        simpa using hacc
      · exact splitCharAux_mem_no_sep sep cs [] piece (by simp) h
    · rw [if_neg hc] at hp
      refine splitCharAux_mem_no_sep sep cs (c :: acc) piece ?_ hp
      intro hm
      rcases List.mem_cons.mp hm with h | h
      · exact hc h.symm
      · exact hacc h
  termination_by l => l.length

theorem splitCharAux_mem_chars (sep : Char) :
    ∀ (l acc piece : List Char) (a : Char),
      piece ∈ splitCharAux sep l acc → a ∈ piece → a ∈ acc ∨ a ∈ l
  | [], acc, piece, a, hp, ha => by
    rw [splitCharAux_nil, List.mem_singleton] at hp
    subst hp
    exact Or.inl (List.mem_reverse.mp ha)
  | c :: cs, acc, piece, a, hp, ha => by
    rw [splitCharAux_cons] at hp
    by_cases hc : c = sep
    · rw [if_pos hc] at hp
      rcases List.mem_cons.mp hp with h | h
      · subst h
        exact Or.inl (List.mem_reverse.mp ha)
      · rcases splitCharAux_mem_chars sep cs [] piece a h ha with h' | h'
        · simp at h'
        · exact Or.inr (List.mem_cons_of_mem c h')
    · rw [if_neg hc] at hp
      rcases splitCharAux_mem_chars sep cs (c :: acc) piece a hp ha with h' | h'
      · rcases List.mem_cons.mp h' with h'' | h''
        · exact Or.inr (h'' ▸ List.mem_cons_self c cs)
        · exact Or.inl h''
      · exact Or.inr (List.mem_cons_of_mem c h')
  termination_by l => l.length

theorem mem_pySplit {sep : Char} {s x : String} (h : x ∈ pySplit sep s) :
    ∃ piece, piece ∈ splitCharAux sep s.data [] ∧ x = ⟨piece⟩ := by
  rw [pySplit, List.mem_map] at h
  obtain ⟨piece, hp, he⟩ := h
  exact ⟨piece, hp, he.symm⟩

theorem pySplit_no_sep {sep : Char} {s x : String} (h : x ∈ pySplit sep s) :
    sep ∉ x.data := by
  obtain ⟨piece, hp, rfl⟩ := mem_pySplit h
  exact splitCharAux_mem_no_sep sep s.data [] piece (by simp) hp

theorem pySplit_chars {sep : Char} {s x : String} {a : Char}
    (h : x ∈ pySplit sep s) (ha : a ∈ x.data) : a ∈ s.data := by
  obtain ⟨piece, hp, rfl⟩ := mem_pySplit h
  rcases splitCharAux_mem_chars sep s.data [] piece a hp ha with h' | h'
  · simp at h'
  · exact h'

theorem semi_not_mem_replace (text : String) :
    ';' ∉ (pyReplaceChar ';' ',' text).data := by
  intro hm
  rw [pyReplaceChar, List.mem_map] at hm
  obtain ⟨c, _, hc⟩ := hm
  by_cases h : c = ';'
  · rw [if_pos h] at hc
    exact absurd hc (by decide)
  · rw [if_neg h] at hc
    exact h hc

theorem not_mem_map_toLower {l : List Char} {d : Char}
    (hd : d.toNat < 65 ∨ 122 < d.toNat) (h : d ∉ l) :
    d ∉ l.map Char.toLower := by
  intro hm
  rw [List.mem_map] at hm
  obtain ⟨c, hc, he⟩ := hm
  rw [toLower_eq_low hd] at he
  exact h (he ▸ hc)

/-! ## Properties of the tokens produced by `parse_ingredients` -/

theorem mem_tokensOf {text tok : String} :
    tok ∈ tokensOf text ↔
      ∃ x ∈ pySplit ',' (pyReplaceChar ';' ',' text),
        pyStrip x ≠ "" ∧ normalize x = tok := by
  simp only [tokensOf, List.mem_map, List.mem_filter, decide_eq_true_eq]
  constructor
  · rintro ⟨x, ⟨hx, hs⟩, hn⟩
    exact ⟨x, hx, hs, hn⟩
  · rintro ⟨x, hx, hs, hn⟩
    exact ⟨x, ⟨hx, hs⟩, hn⟩

theorem mem_parse_iff {text tok : String} :
    tok ∈ parse_ingredients text ↔ tok ∈ tokensOf text := by
  rw [parse_ingredients, List.mem_toFinset]

theorem parse_token_props {text tok : String}
    (h : tok ∈ parse_ingredients text) :
    tok ≠ "" ∧ pyStrip tok = tok ∧ pyLower tok = tok ∧
      ',' ∉ tok.data ∧ ';' ∉ tok.data := by
  obtain ⟨x, hx, hs, rfl⟩ := mem_tokensOf.mp (mem_parse_iff.mp h)
  have hxdata : (normalize x).data = (pyStripL x.data).map Char.toLower :=
    data_normalize x
  have hcomma : ',' ∉ x.data := pySplit_no_sep hx
  have hsemi : ';' ∉ x.data := fun hm =>
    semi_not_mem_replace text (pySplit_chars hx hm)
  refine ⟨normalize_ne_empty hs, pyStrip_normalize x, pyLower_normalize x, ?_, ?_⟩
  · rw [hxdata]
    exact not_mem_map_toLower (Or.inl (by decide))
      (fun hm => hcomma ((pyStripL_sublist x.data).subset hm))
  · rw [hxdata]
    exact not_mem_map_toLower (Or.inl (by decide))
      (fun hm => hsemi ((pyStripL_sublist x.data).subset hm))

/-! ## Lemmas about `sortMS` / `sortedList` -/

theorem mem_sortMS {m : Multiset String} {a : String} :
    a ∈ sortMS m ↔ a ∈ m :=
  Quot.inductionOn m fun l => by
    simp [sortMS, (l.perm_insertionSort strLe).mem_iff]

theorem sortMS_sorted (m : Multiset String) : List.Sorted strLe (sortMS m) :=
  Quot.inductionOn m fun l => l.sorted_insertionSort strLe

theorem mem_sortedList {s : Finset String} {a : String} :
    a ∈ sortedList s ↔ a ∈ s :=
  mem_sortMS

theorem sortedList_eq_nil_iff {s : Finset String} :
    sortedList s = [] ↔ s = ∅ := by
  constructor
  · intro h
    refine Finset.eq_empty_of_forall_not_mem fun a ha => ?_
    have := mem_sortedList.mpr ha
    rw [h] at this
    simp at this
  · rintro rfl
    rfl

theorem sortedList_ne_nil_iff {s : Finset String} :
    sortedList s ≠ [] ↔ s.Nonempty := by
  rw [Ne, sortedList_eq_nil_iff, Finset.nonempty_iff_ne_empty]

/-! ## Projections of `check_allergy` -/

theorem check_allergy_ingredients (p : Profile) (text : String) :
    (check_allergy p text).ingredients = sortedList (parse_ingredients text) :=
  rfl

theorem check_allergy_direct (p : Profile) (text : String) :
    (check_allergy p text).direct =
      sortedList ((p.allergies.map normalize).toFinset ∩ parse_ingredients text) :=
  rfl

theorem check_allergy_partM (p : Profile) (text : String) :
    (check_allergy p text).partMatches =
      sortedList ((parse_ingredients text).filter
        (fun fi => ∃ ua ∈ (p.allergies.map normalize).toFinset,
          strMem ua fi ∧ ua ≠ fi)) :=
  rfl

theorem check_allergy_severity (p : Profile) (text : String) :
    (check_allergy p text).severity =
      if ((p.allergies.map normalize).toFinset ∩ parse_ingredients text).Nonempty
      then "High"
      else if ((parse_ingredients text).filter
          (fun fi => ∃ ua ∈ (p.allergies.map normalize).toFinset,
            strMem ua fi ∧ ua ≠ fi)).Nonempty
        then "Medium" else "Low" :=
  rfl

/-! ## Joining tokens with commas (for the idempotence claim) -/

/-- Python `",".join(tokens)`. -/
def joinComma : List String → String
  | [] => ""
  | [x] => x
  | x :: y :: ys => x ++ "," ++ joinComma (y :: ys)

theorem data_append (a b : String) : (a ++ b).data = a.data ++ b.data := rfl

theorem replace_eq_self {x : String} (h : ';' ∉ x.data) :
    pyReplaceChar ';' ',' x = x := by
  apply string_data_inj
  show x.data.map _ = x.data
  have hc : ∀ c ∈ x.data, (if c = ';' then ',' else c) = c :=
    fun c hcm => if_neg fun e => h (by rw [← e]; exact hcm)
  rw [List.map_congr_left hc]
  simp

theorem parse_join :
    ∀ L : List String,
      (∀ x ∈ L, x ≠ "" ∧ pyStrip x = x ∧ pyLower x = x ∧
        ',' ∉ x.data ∧ ';' ∉ x.data) →
      parse_ingredients (joinComma L) = L.toFinset
  | [], _ => by decide
  | [x], h => by
    obtain ⟨hne, hstrip, hlower, hcomma, hsemi⟩ := h x (List.mem_singleton_self x)
    have hp : pyStrip x ≠ "" := by rw [hstrip]; exact hne
    have hnx : normalize x = x := by rw [normalize, hstrip, hlower]
    rw [show joinComma [x] = x from rfl, parse_ingredients, tokensOf,
      replace_eq_self hsemi, pySplit, splitCharAux_no_sep ',' x.data [] hcomma]
    simp only [List.reverse_nil, List.nil_append, List.map_cons, List.map_nil]
    rw [show (⟨x.data⟩ : String) = x from rfl]
    simp [hp, hnx]
  | x :: y :: ys, h => by
    obtain ⟨hne, hstrip, hlower, hcomma, hsemi⟩ := h x (List.mem_cons_self _ _)
    have hrest := parse_join (y :: ys) (fun z hz => h z (List.mem_cons_of_mem x hz))
    have hp : pyStrip x ≠ "" := by rw [hstrip]; exact hne
    have hnx : normalize x = x := by rw [normalize, hstrip, hlower]
    have hdata : (joinComma (x :: y :: ys)).data =
        x.data ++ ',' :: (joinComma (y :: ys)).data := by
      rw [show joinComma (x :: y :: ys) = x ++ "," ++ joinComma (y :: ys) from rfl,
        data_append, data_append, List.append_assoc]
      rfl
    have hJ : pyReplaceChar ';' ',' (joinComma (x :: y :: ys)) =
        ⟨x.data ++ ',' ::
          (pyReplaceChar ';' ',' (joinComma (y :: ys))).data⟩ := by
      apply string_data_inj
      show (joinComma (x :: y :: ys)).data.map _ = _
      rw [hdata, List.map_append, List.map_cons]
      have h1 : x.data.map (fun c => if c = ';' then ',' else c) = x.data :=
        congrArg String.data (replace_eq_self hsemi)
      rw [h1]
      rfl
    rw [parse_ingredients, tokensOf, hJ, pySplit,
      show (⟨x.data ++ ',' ::
        (pyReplaceChar ';' ',' (joinComma (y :: ys))).data⟩ : String).data =
        x.data ++ ',' ::
          (pyReplaceChar ';' ',' (joinComma (y :: ys))).data from rfl,
      splitCharAux_append ',' x.data []
        (pyReplaceChar ';' ',' (joinComma (y :: ys))).data hcomma]
    simp only [List.reverse_nil, List.nil_append, List.map_cons]
    rw [show (⟨x.data⟩ : String) = x from rfl,
      List.filter_cons_of_pos (by simpa using hp), List.map_cons, hnx,
      List.toFinset_cons]
    have : ((((splitCharAux ','
          (pyReplaceChar ';' ',' (joinComma (y :: ys))).data []).map
            String.mk).filter (fun z => pyStrip z ≠ "")).map
              normalize).toFinset =
        parse_ingredients (joinComma (y :: ys)) := rfl
    rw [this, hrest, List.toFinset_cons, List.toFinset_cons, List.toFinset_cons]

/-! ## The claims -/

/-- C1: for every profile and ingredient text, the severity field of the
report returned by `check_allergy` is "High" if the direct set is
non-empty, else "Medium" if the partial set is non-empty, else "Low"
(priority order, never additive). -/
theorem claim_C1_severity_priority (p : Profile) (text : String) :
    (check_allergy p text).severity =
      if (check_allergy p text).direct ≠ [] then "High"
      else if (check_allergy p text).partMatches ≠ [] then "Medium"
      else "Low" := by
  rw [check_allergy_severity, check_allergy_direct, check_allergy_partM]
  simp only [sortedList_ne_nil_iff]

/-- C2 counterexample: with the allergy list `["  "]` (which normalizes
to the empty string) and text `"milk"`, `check_allergy` puts `"milk"`
into the partial list although no normalized allergy term is a
*non-empty* substring of `"milk"`; so the partial list is not exactly
the set of food tokens with a non-empty strict-substring allergy
witness. -/
theorem claim_C2_counterexample :
    (check_allergy ⟨"u", ["  "]⟩ "milk").partMatches = ["milk"] ∧
    ∀ a ∈ (["  "] : List String).map normalize,
      ¬(a ≠ "" ∧ strMem a "milk" ∧ a ≠ "milk") := by
  constructor
  · decide
  · decide

/-- C2 amended: for every profile and ingredient text, the partial list
of the report returned by `check_allergy` consists exactly of those
normalized food ingredient tokens `f` for which some normalized allergy
term `a` (possibly empty) is a substring of `f` with `a ≠ f`; in
particular `check_allergy` with allergy set `{"nut"}` and text
`"peanut butter, cashew"` yields direct `[]`, partial
`["peanut butter"]`, severity `"Medium"`. -/
theorem claim_C2_amended :
    (∀ (p : Profile) (text f : String),
      f ∈ (check_allergy p text).partMatches ↔
        f ∈ parse_ingredients text ∧
          ∃ a ∈ p.allergies.map normalize, strMem a f ∧ a ≠ f) ∧
    (check_allergy ⟨"u", ["nut"]⟩ "peanut butter, cashew").direct = [] ∧
    (check_allergy ⟨"u", ["nut"]⟩ "peanut butter, cashew").partMatches =
      ["peanut butter"] ∧
    (check_allergy ⟨"u", ["nut"]⟩ "peanut butter, cashew").severity =
      "Medium" := by
  refine ⟨?_, by decide, by decide, by decide⟩
  intro p text f
  rw [check_allergy_partM, mem_sortedList, Finset.mem_filter]
  constructor
  · rintro ⟨hf, a, ha, hs, hn⟩
    exact ⟨hf, a, List.mem_toFinset.mp ha, hs, hn⟩
  · rintro ⟨hf, a, ha, hs, hn⟩
    exact ⟨hf, a, List.mem_toFinset.mpr ha, hs, hn⟩

/-- C3 counterexample: with allergies `["nut", "peanut"]` and text
`"peanut"`, the token `"peanut"` appears in the direct list (exact match
of the term `"peanut"`) and in the partial list (strict-substring match
of the term `"nut"`), so direct and partial are not disjoint. -/
theorem claim_C3_counterexample :
    "peanut" ∈ (check_allergy ⟨"u", ["nut", "peanut"]⟩ "peanut").direct ∧
    "peanut" ∈
      (check_allergy ⟨"u", ["nut", "peanut"]⟩ "peanut").partMatches := by
  constructor
  · decide
  · decide

/-- C3 amended: a token cannot be an exact match and a strict-substring
match *for the same allergy term*; hence whenever the normalized allergy
set has at most one element, the direct and partial lists of
`check_allergy` are disjoint.  (With two or more allergy terms a token
can be in both lists, as the counterexample shows.) -/
theorem claim_C3_amended (p : Profile) (text : String)
    (h : (p.allergies.map normalize).toFinset.card ≤ 1) :
    ∀ tok ∈ (check_allergy p text).direct,
      tok ∉ (check_allergy p text).partMatches := by
  intro tok hd hp
  rw [check_allergy_direct, mem_sortedList, Finset.mem_inter] at hd
  rw [check_allergy_partM, mem_sortedList, Finset.mem_filter] at hp
  obtain ⟨hdu, _⟩ := hd
  obtain ⟨_, a, ha, _, hne⟩ := hp
  exact hne (Finset.card_le_one.mp h a ha tok hdu)

theorem claim_C3_amended_witness :
    ((⟨"u", ["milk"]⟩ : Profile).allergies.map normalize).toFinset.card ≤ 1 ∧
    "milk" ∈ (check_allergy ⟨"u", ["milk"]⟩ "milk, almond milk").direct ∧
    "milk" ∉
      (check_allergy ⟨"u", ["milk"]⟩ "milk, almond milk").partMatches :=
  ⟨by decide, by decide,
    claim_C3_amended ⟨"u", ["milk"]⟩ "milk, almond milk" (by decide)
      "milk" (by decide)⟩

/-- C4: every token produced by `parse_ingredients` is non-empty, has
no leading or trailing whitespace (it is a fixed point of `pyStrip`),
and contains no uppercase letters; and
`parse_ingredients "Milk, EGG ; Peanut" = {"milk", "egg", "peanut"}`. -/
theorem claim_C4_normalized_tokens :
    (∀ text tok, tok ∈ parse_ingredients text →
      tok ≠ "" ∧ pyStrip tok = tok ∧ ∀ c ∈ tok.data, ¬c.isUpper) ∧
    parse_ingredients "Milk, EGG ; Peanut" = {"milk", "egg", "peanut"} := by
  constructor
  · intro text tok h
    obtain ⟨hne, hstrip, hlower, _, _⟩ := parse_token_props h
    refine ⟨hne, hstrip, ?_⟩
    intro c hc
    have hdata : tok.data = tok.data.map Char.toLower :=
      (congrArg String.data hlower).symm
    rw [hdata, List.mem_map] at hc
    obtain ⟨d, _, rfl⟩ := hc
    simp [isUpper_toLower]
  · decide

theorem claim_C4_witness :
    "milk" ∈ parse_ingredients "Milk, EGG ; Peanut" ∧
      ("milk" ≠ "" ∧ pyStrip "milk" = "milk" ∧
        ∀ c ∈ "milk".data, ¬c.isUpper) :=
  ⟨by decide,
    claim_C4_normalized_tokens.1 "Milk, EGG ; Peanut" "milk" (by decide)⟩

/-- C5: `check_allergy` is total — for every profile and string it
returns a report whose severity is one of "High", "Medium", "Low" — and
degrades gracefully: `check_allergy({"milk"}, "")` returns all-empty
lists with severity "Low", and `check_allergy({}, "milk, sugar")`
returns `direct = []`, `partial = []`, severity "Low" (the profile name
is arbitrary in both cases). -/
theorem claim_C5_total_graceful :
    (∀ (p : Profile) (text : String),
      (check_allergy p text).severity = "High" ∨
      (check_allergy p text).severity = "Medium" ∨
      (check_allergy p text).severity = "Low") ∧
    (∀ nm, check_allergy ⟨nm, ["milk"]⟩ "" =
      { ingredients := [], direct := [], partMatches := [],
        severity := "Low" }) ∧
    (∀ nm, check_allergy ⟨nm, []⟩ "milk, sugar" =
      { ingredients := ["milk", "sugar"], direct := [], partMatches := [],
        severity := "Low" }) := by
  refine ⟨?_, ?_, ?_⟩
  · intro p text
    rw [check_allergy_severity]
    split_ifs
    · exact Or.inl rfl
    · exact Or.inr (Or.inl rfl)
    · exact Or.inr (Or.inr rfl)
  · intro nm
    rw [show check_allergy ⟨nm, ["milk"]⟩ "" =
      check_allergy ⟨"", ["milk"]⟩ "" from rfl]
    decide
  · intro nm
    rw [show check_allergy ⟨nm, []⟩ "milk, sugar" =
      check_allergy ⟨"", []⟩ "milk, sugar" from rfl]
    decide

/-- C6: `parse_ingredients` is idempotent under re-parsing — joining the
(sorted) output tokens with commas and parsing again yields the same
set. -/
theorem claim_C6_idempotent (text : String) :
    parse_ingredients (joinComma (sortedList (parse_ingredients text))) =
      parse_ingredients text := by
  have hprops : ∀ x ∈ sortedList (parse_ingredients text),
      x ≠ "" ∧ pyStrip x = x ∧ pyLower x = x ∧
        ',' ∉ x.data ∧ ';' ∉ x.data :=
    fun x hx => parse_token_props (mem_sortedList.mp hx)
  rw [parse_join (sortedList (parse_ingredients text)) hprops]
  apply Finset.ext
  intro a
  rw [List.mem_toFinset, mem_sortedList]

/-- C7: `check_allergy` defensively re-normalizes its allergy terms —
replacing every allergy term `a` by `normalize a` before the call leaves
the returned report unchanged. -/
theorem claim_C7_renormalization (p : Profile) (text : String) :
    check_allergy ⟨p.name, p.allergies.map normalize⟩ text =
      check_allergy p text := by
  have h : (p.allergies.map normalize).map normalize =
      p.allergies.map normalize := by
    rw [List.map_map]
    exact List.map_congr_left fun a _ => normalize_idem a
  have L : check_allergy ⟨p.name, p.allergies.map normalize⟩ text =
      { ingredients := sortedList (parse_ingredients text)
        direct := sortedList
          (((p.allergies.map normalize).map normalize).toFinset ∩
            parse_ingredients text)
        partMatches := sortedList ((parse_ingredients text).filter
          (fun fi => ∃ ua ∈ ((p.allergies.map normalize).map
            normalize).toFinset, strMem ua fi ∧ ua ≠ fi))
        severity :=
          if (((p.allergies.map normalize).map normalize).toFinset ∩
              parse_ingredients text).Nonempty then "High"
          else if ((parse_ingredients text).filter
              (fun fi => ∃ ua ∈ ((p.allergies.map normalize).map
                normalize).toFinset, strMem ua fi ∧ ua ≠ fi)).Nonempty
            then "Medium" else "Low" } := rfl
  have R : check_allergy p text =
      { ingredients := sortedList (parse_ingredients text)
        direct := sortedList
          ((p.allergies.map normalize).toFinset ∩ parse_ingredients text)
        partMatches := sortedList ((parse_ingredients text).filter
          (fun fi => ∃ ua ∈ (p.allergies.map normalize).toFinset,
            strMem ua fi ∧ ua ≠ fi))
        severity :=
          if ((p.allergies.map normalize).toFinset ∩
              parse_ingredients text).Nonempty then "High"
          else if ((parse_ingredients text).filter
              (fun fi => ∃ ua ∈ (p.allergies.map normalize).toFinset,
                strMem ua fi ∧ ua ≠ fi)).Nonempty
            then "Medium" else "Low" } := rfl
  rw [L, h, ← R]

/-- C8: `check_allergy` is a pure, deterministic function of the
allergies list and the ingredient text only — any two profiles with
equal allergy lists give identical reports (whatever their other
fields), and the `ingredients`, `direct` and `partMatches` lists of the
report are sorted ascending in the lexicographic (code-point) order
`strLe`. -/
theorem claim_C8_pure_sorted (p₁ p₂ : Profile) (text : String)
    (h : p₁.allergies = p₂.allergies) :
    check_allergy p₁ text = check_allergy p₂ text ∧
    List.Sorted strLe (check_allergy p₁ text).ingredients ∧
    List.Sorted strLe (check_allergy p₁ text).direct ∧
    List.Sorted strLe (check_allergy p₁ text).partMatches := by
  refine ⟨?_, ?_, ?_, ?_⟩
  · cases p₁ with
    | mk n₁ a₁ =>
      cases p₂ with
      | mk n₂ a₂ =>
        dsimp at h
        subst h
        rfl
  · rw [check_allergy_ingredients]
    exact sortMS_sorted _
  · rw [check_allergy_direct]
    exact sortMS_sorted _
  · rw [check_allergy_partM]
    exact sortMS_sorted _

theorem claim_C8_witness :
    (⟨"alice", ["milk"]⟩ : Profile).allergies =
      (⟨"bob", ["milk"]⟩ : Profile).allergies ∧
    (check_allergy ⟨"alice", ["milk"]⟩ "milk, almond milk" =
        check_allergy ⟨"bob", ["milk"]⟩ "milk, almond milk" ∧
      List.Sorted strLe
        (check_allergy ⟨"alice", ["milk"]⟩ "milk, almond milk").ingredients ∧
      List.Sorted strLe
        (check_allergy ⟨"alice", ["milk"]⟩ "milk, almond milk").direct ∧
      List.Sorted strLe
        (check_allergy ⟨"alice", ["milk"]⟩
          "milk, almond milk").partMatches) :=
  ⟨rfl, claim_C8_pure_sorted ⟨"alice", ["milk"]⟩ ⟨"bob", ["milk"]⟩
    "milk, almond milk" rfl⟩

/-- C9: every token in the direct list or in the partial list of the
report returned by `check_allergy` also appears in the report's
ingredients list. -/
theorem claim_C9_matches_are_food_tokens (p : Profile) (text tok : String)
    (h : tok ∈ (check_allergy p text).direct ∨
      tok ∈ (check_allergy p text).partMatches) :
    tok ∈ (check_allergy p text).ingredients := by
  rw [check_allergy_ingredients, mem_sortedList]
  rcases h with h | h
  · rw [check_allergy_direct, mem_sortedList, Finset.mem_inter] at h
    exact h.2
  · rw [check_allergy_partM, mem_sortedList, Finset.mem_filter] at h
    exact h.1

theorem claim_C9_witness :
    ("peanut butter" ∈
        (check_allergy ⟨"u", ["nut"]⟩ "peanut butter, cashew").direct ∨
      "peanut butter" ∈
        (check_allergy ⟨"u", ["nut"]⟩ "peanut butter, cashew").partMatches) ∧
    "peanut butter" ∈
      (check_allergy ⟨"u", ["nut"]⟩ "peanut butter, cashew").ingredients :=
  ⟨Or.inr (by decide),
    claim_C9_matches_are_food_tokens ⟨"u", ["nut"]⟩ "peanut butter, cashew"
      "peanut butter" (Or.inr (by decide))⟩

/-- C10: if some allergy term in the profile normalizes to the empty
string, then every food ingredient token is placed in the partial list
(Python `"" in s` is always true), so the severity is never "Low" when
the normalized ingredient set is non-empty. -/
theorem claim_C10_empty_term_matches_all (p : Profile) (text : String)
    (h : ∃ a ∈ p.allergies, normalize a = "") :
    (∀ tok ∈ (check_allergy p text).ingredients,
      tok ∈ (check_allergy p text).partMatches) ∧
    ((check_allergy p text).ingredients ≠ [] →
      (check_allergy p text).severity ≠ "Low") := by
  obtain ⟨a, ha, hna⟩ := h
  have hmem : "" ∈ (p.allergies.map normalize).toFinset := by
    rw [List.mem_toFinset, List.mem_map]
    exact ⟨a, ha, hna⟩
  have hsub : ∀ tok ∈ parse_ingredients text,
      tok ∈ (parse_ingredients text).filter
        (fun fi => ∃ ua ∈ (p.allergies.map normalize).toFinset,
          strMem ua fi ∧ ua ≠ fi) := by
    intro tok htok
    rw [Finset.mem_filter]
    refine ⟨htok, "", hmem, List.nil_infix, ?_⟩
    obtain ⟨hne, _⟩ := parse_token_props htok
    exact fun e => hne e.symm
  constructor
  · intro tok htok
    rw [check_allergy_ingredients, mem_sortedList] at htok
    rw [check_allergy_partM, mem_sortedList]
    exact hsub tok htok
  · intro hni
    rw [check_allergy_ingredients, sortedList_ne_nil_iff] at hni
    obtain ⟨tok, htok⟩ := hni
    have hp : ((parse_ingredients text).filter
        (fun fi => ∃ ua ∈ (p.allergies.map normalize).toFinset,
          strMem ua fi ∧ ua ≠ fi)).Nonempty := ⟨tok, hsub tok htok⟩
    rw [check_allergy_severity]
    by_cases hd : ((p.allergies.map normalize).toFinset ∩
        parse_ingredients text).Nonempty
    · rw [if_pos hd]
      decide
    · rw [if_neg hd, if_pos hp]
      decide

theorem claim_C10_witness :
    (∃ a ∈ (⟨"u", ["  "]⟩ : Profile).allergies, normalize a = "") ∧
    ((∀ tok ∈ (check_allergy ⟨"u", ["  "]⟩ "milk").ingredients,
      tok ∈ (check_allergy ⟨"u", ["  "]⟩ "milk").partMatches) ∧
    ((check_allergy ⟨"u", ["  "]⟩ "milk").ingredients ≠ [] →
      (check_allergy ⟨"u", ["  "]⟩ "milk").severity ≠ "Low")) :=
  ⟨⟨"  ", by decide, by decide⟩,
    claim_C10_empty_term_matches_all ⟨"u", ["  "]⟩ "milk"
      ⟨"  ", by decide, by decide⟩⟩

end AllergyApp
